import Mathlib

/-! Shallow embedding of the rs-dir-stat core: the file-tree data model
(FileNode, from src/file_system.rs), the explicit-stack flattening iterator
(FileNodeIterator::next, modelled by iterNext and flattenLoop), the
proportional forward/inverse mappings of the visualization widget
(paintSegments, resolve, eventMouseDown, from src/visualization_widget.rs),
and the filesystem scanner traverse_files_parallel (modelled over an
abstract filesystem FsEntry).  Machine integers (u64 sizes) are modelled as
Nat, f64 positions and fractions as rationals (exact arithmetic), and
panics / soft failures as Option (none = panic resp. soft failure). -/

namespace DirStat

/-- The tree node shape of src/file_system.rs: a Directory with a path and
an ordered child list, or a File with a path and a size in bytes. -/
inductive FileNode where
  | Directory : String → List FileNode → FileNode
  | File : String → Nat → FileNode

/-- FileNode::size: 0 for a Directory, the stored value for a File. -/
def FileNode.size : FileNode → Nat
  | .Directory _ _ => 0
  | .File _ s => s

/-- FileNode::path: the node's path regardless of variant. -/
def FileNode.path : FileNode → String
  | .Directory p _ => p
  | .File p _ => p

mutual

/-- Number of nodes in a tree (termination measure for the iterator). -/
def nodeCount : FileNode → Nat
  | .File _ _ => 1
  | .Directory _ children => 1 + listCount children

/-- Number of nodes in a forest. -/
def listCount : List FileNode → Nat
  | [] => 0
  | n :: rest => nodeCount n + listCount rest

end

mutual

/-- Sum of the stored size over every File node anywhere in the tree,
with every Directory node contributing 0. -/
def treeSize : FileNode → Nat
  | .File _ s => s
  | .Directory _ children => listTreeSize children

/-- Sum of treeSize over a forest. -/
def listTreeSize : List FileNode → Nat
  | [] => 0
  | n :: rest => treeSize n + listTreeSize rest

end

/-- Outcome of one call to FileNodeIterator::next: yield a node and leave a
new stack, finish, or fail the assert (panic). -/
inductive IterStep where
  | yield : FileNode → List FileNode → IterStep
  | done : IterStep
  | panicked : IterStep

/-- One call to FileNodeIterator::next (src/file_system.rs lines 49-69),
with the stack's top at the head of the list.  Popping a Directory pushes
its children in reverse (so the first child is on top), then pops the new
top and returns it after asserting it is a File or absent; a Directory on
top at that point fails the assert, i.e. panics. -/
def iterNext : List FileNode → IterStep
  | [] => .done
  | .File p s :: rest => .yield (.File p s) rest
  | .Directory _ children :: rest =>
    match children ++ rest with
    | [] => .done
    | .File p s :: rest2 => .yield (.File p s) rest2
    | .Directory _ _ :: _ => .panicked

theorem listCount_append (a b : List FileNode) :
    listCount (a ++ b) = listCount a + listCount b := by
  induction a with
  | nil => simp [listCount]
  | cons c cs ih => simp [listCount, ih, Nat.add_assoc]

theorem iterNext_yield_count {stack : List FileNode} {f : FileNode}
    {rest : List FileNode} (h : iterNext stack = .yield f rest) :
    listCount rest < listCount stack := by
  cases stack with
  | nil => simp [iterNext] at h
  | cons node tail =>
    cases node with
    | File p s =>
      simp only [iterNext] at h
      injection h with h1 h2
      subst h2
      simp only [listCount, nodeCount]
      omega
    | Directory q children =>
      simp only [iterNext] at h
      have h3 : listCount children + listCount tail = listCount (children ++ tail) :=
        (listCount_append children tail).symm
      rcases hm : children ++ tail with - | ⟨node2, rest2⟩
      · rw [hm] at h
        simp at h
      · cases node2 with
        | File p s =>
          rw [hm] at h
          simp only [] at h
          injection h with h1 h2
          subst h2
          rw [hm] at h3
          simp only [listCount, nodeCount] at h3 ⊢
          omega
        | Directory _ _ =>
          rw [hm] at h
          simp at h

/-- Collecting the iterator: repeatedly call iterNext; some list when the
iteration finishes, none when a call panics. -/
def flattenLoop (stack : List FileNode) : Option (List FileNode) :=
  match h : iterNext stack with
  | .done => some []
  | .panicked => none
  | .yield f rest => (flattenLoop rest).map (f :: ·)
termination_by listCount stack
decreasing_by exact iterNext_yield_count h

/-- FileNode::as_vector / collecting FileNodeIterator::new(root): the
flattened leaf sequence of a tree, none when the iterator panics. -/
def flatten (t : FileNode) : Option (List FileNode) :=
  flattenLoop [t]

theorem flattenLoop_done {stack : List FileNode}
    (h : iterNext stack = .done) : flattenLoop stack = some [] := by
  rw [flattenLoop.eq_def]
  split <;> simp_all

theorem flattenLoop_panicked {stack : List FileNode}
    (h : iterNext stack = .panicked) : flattenLoop stack = none := by
  rw [flattenLoop.eq_def]
  split <;> simp_all

theorem flattenLoop_yield {stack : List FileNode} {f : FileNode}
    {rest : List FileNode} (h : iterNext stack = .yield f rest) :
    flattenLoop stack = (flattenLoop rest).map (f :: ·) := by
  rw [flattenLoop.eq_def]
  split <;> simp_all

/-- The skip_while walk of VisualizationWidget::event (lines 33-43):
size_so_far (acc, a u64) is increased by the file's size, the file is
skipped while the accumulated size stays strictly below the target, and the
first file that is not skipped is returned. -/
def resolveAux : List FileNode → Nat → ℚ → Option FileNode
  | [], _, _ => none
  | f :: rest, acc, target =>
    if ((acc + f.size : Nat) : ℚ) < target then resolveAux rest (acc + f.size) target
    else some f

/-- The inverse (hit-test) mapping of VisualizationWidget::event (lines
25-52): target_size = total as f64 * (x / width), then the skip_while walk.
f64 arithmetic is modelled exactly over the rationals. -/
def resolve (files : List FileNode) (total : Nat) (width x : ℚ) : Option FileNode :=
  resolveAux files 0 ((total : ℚ) * (x / width))

/-- The selection update performed by a MouseDown event: if the widget holds
no flattened sequence the selection is untouched, otherwise the selection
becomes the result of the inverse mapping (none clears it). -/
def eventMouseDown (files : Option (List FileNode × Nat)) (width x : ℚ)
    (sel : Option FileNode) : Option FileNode :=
  match files with
  | none => sel
  | some (fs, total) => resolve fs total width x

/-- The paint loop of VisualizationWidget::paint (lines 108-146): done
starts at 0; each node gets the rectangle from width * done to
width * (done + percentage) with percentage = size / total, and done
advances by percentage.  Only the horizontal interval is modelled. -/
def paintAux : List FileNode → Nat → ℚ → ℚ → List (FileNode × ℚ × ℚ)
  | [], _, _, _ => []
  | f :: rest, total, width, done =>
    (f, width * done, width * (done + (f.size : ℚ) / (total : ℚ))) ::
      paintAux rest total width (done + (f.size : ℚ) / (total : ℚ))

/-- The forward (paint) mapping: the list of (file, segment) pairs drawn by
VisualizationWidget::paint for a flattened sequence, total and extent. -/
def paintSegments (files : List FileNode) (total : Nat) (width : ℚ) :
    List (FileNode × ℚ × ℚ) :=
  paintAux files total width 0

/-- Sum of the sizes of the first n files of a sequence. -/
def cumSize (files : List FileNode) (n : Nat) : Nat :=
  ((files.take n).map FileNode.size).sum

/-- The running totals of the spec's inverse-mapping description: the value
of size_so_far after adding each file's own size. -/
def runningTotals (files : List FileNode) : List Nat :=
  (List.range files.length).map (fun i => cumSize files (i + 1))

/-- The inverse mapping in the spec's words: the first file for which
size_so_far is at least the target after adding that file's own size. -/
def firstHit (files : List FileNode) (target : ℚ) : Option FileNode :=
  ((files.zip (runningTotals files)).find?
    (fun fs => decide (target ≤ ((fs.2 : Nat) : ℚ)))).map Prod.fst

/-- An abstract filesystem object as seen by traverse_files_parallel
through its sequence of calls: gone = the stat call fails; file = a regular
file with its size, the Bool recording whether the extra per-entry metadata
call fails (a race); dir = a statable directory with its listed entries;
unlistable = a statable directory whose read_dir fails; other = a statable
object that is neither regular file nor directory. -/
inductive FsEntry where
  | gone : String → FsEntry
  | file : String → Nat → Bool → FsEntry
  | dir : String → List FsEntry → FsEntry
  | unlistable : String → FsEntry
  | other : String → FsEntry

mutual

/-- traverse_files_parallel (src/file_system.rs lines 81-136): none when
the root cannot be stat'ed, when a directory cannot be listed, or when the
object is neither file nor directory; a File node with the measured size
for a regular file; for a directory, a Directory node whose children come
from the per-entry closure.  The parallel fan-out is order-preserving
(collected into a Vec in entry order), so it is modelled sequentially. -/
def traverse : FsEntry → Option FileNode
  | .gone _ => none
  | .file p s _ => some (.File p s)
  | .dir p entries => some (.Directory p (traverseChildren entries))
  | .unlistable _ => none
  | .other _ => none

/-- The per-entry closure of the par_iter (lines 96-109): if path.is_file()
the entry becomes a File node whose size falls back to 0 when the metadata
re-read fails; otherwise traverse_files_parallel recurses on it and a none
result is filtered out. -/
def traverseChildren : List FsEntry → List FileNode
  | [] => []
  | .file p s reread :: rest =>
    .File p (if reread then 0 else s) :: traverseChildren rest
  | e :: rest =>
    match traverse e with
    | some n => n :: traverseChildren rest
    | none => traverseChildren rest

end

theorem cumSize_zero (files : List FileNode) : cumSize files 0 = 0 := by
  simp [cumSize]

theorem cumSize_cons_succ (f : FileNode) (rest : List FileNode) (n : Nat) :
    cumSize (f :: rest) (n + 1) = f.size + cumSize rest n := by
  simp [cumSize]

theorem cumSize_succ_get (files : List FileNode) (i : Nat) (hi : i < files.length) :
    cumSize files (i + 1) = cumSize files i + (files.get ⟨i, hi⟩).size := by
  induction files generalizing i with
  | nil => simp at hi
  | cons f rest ih =>
    cases i with
    | zero => simp [cumSize_cons_succ, cumSize_zero]
    | succ j =>
      have hj : j < rest.length := by simpa using hi
      simp [cumSize_cons_succ, ih j hj, Nat.add_assoc]

theorem size_le_total {f : FileNode} {files : List FileNode} (h : f ∈ files) :
    f.size ≤ (files.map FileNode.size).sum := by
  induction files with
  | nil => simp at h
  | cons g rest ih =>
    rcases List.mem_cons.mp h with h1 | h2
    · subst h1
      simp only [List.map_cons, List.sum_cons]
      exact Nat.le_add_right _ _
    · simp only [List.map_cons, List.sum_cons]
      exact le_trans (ih h2) (Nat.le_add_left _ _)

/-- The walk stops at position i as soon as the running total through i is
the first one reaching the target; monotonicity of the running totals means
it is enough that the total before i is still below the target. -/
theorem resolveAux_eq_get (files : List FileNode) (i : Nat) (hi : i < files.length)
    (acc : Nat) (target : ℚ)
    (hlow : ((acc + cumSize files i : Nat) : ℚ) < target)
    (hhigh : target ≤ ((acc + cumSize files (i + 1) : Nat) : ℚ)) :
    resolveAux files acc target = some (files.get ⟨i, hi⟩) := by
  induction files generalizing i acc with
  | nil => simp at hi
  | cons f rest ih =>
    cases i with
    | zero =>
      rw [cumSize_cons_succ, cumSize_zero] at hhigh
      rw [resolveAux, if_neg]
      · rfl
      · push_cast at hhigh ⊢
        linarith
    | succ j =>
      have hj : j < rest.length := by simpa using hi
      rw [cumSize_cons_succ] at hlow hhigh
      have hskip : ((acc + f.size : Nat) : ℚ) < target := by
        have : ((acc + f.size : Nat) : ℚ) ≤ ((acc + (f.size + cumSize rest j) : Nat) : ℚ) := by
          push_cast
          have : (0 : ℚ) ≤ (cumSize rest j : ℚ) := by positivity
          linarith
        linarith
      rw [resolveAux, if_pos hskip]
      have := ih j hj (acc + f.size)
        (by push_cast at hlow ⊢; linarith)
        (by push_cast at hhigh ⊢; linarith)
      simpa using this

theorem runningTotals_cons (f : FileNode) (rest : List FileNode) :
    runningTotals (f :: rest) = f.size :: (runningTotals rest).map (f.size + ·) := by
  simp only [runningTotals, List.length_cons, List.range_succ_eq_map, List.map_cons,
    List.map_map]
  congr 1

/-- The code's accumulator walk agrees with the spec's first-hit search,
for an arbitrary starting accumulator shifting every running total. -/
theorem resolveAux_eq_firstHitAux (files : List FileNode) (acc : Nat) (target : ℚ) :
    resolveAux files acc target =
      ((files.zip ((runningTotals files).map (acc + ·))).find?
        (fun fs => decide (target ≤ ((fs.2 : Nat) : ℚ)))).map Prod.fst := by
  induction files generalizing acc with
  | nil => simp [resolveAux, runningTotals]
  | cons f rest ih =>
    rw [runningTotals_cons]
    simp only [List.map_cons, List.zip_cons_cons, List.find?_cons]
    by_cases hc : ((acc + f.size : Nat) : ℚ) < target
    · rw [resolveAux, if_pos hc]
      have hdec : (decide (target ≤ ((acc + f.size : Nat) : ℚ))) = false := by
        simp only [decide_eq_false_iff_not, not_le]
        exact_mod_cast hc
      rw [hdec]
      rw [List.map_map]
      have hfun : ((fun x => acc + x) ∘ fun x => f.size + x)
          = (fun x => acc + f.size + x) := by
        funext x
        simp [Function.comp, Nat.add_assoc]
      rw [hfun]
      exact ih (acc + f.size)
    · rw [resolveAux, if_neg hc]
      have hdec : (decide (target ≤ ((acc + f.size : Nat) : ℚ))) = true := by
        simp only [decide_eq_true_eq]
        push_cast at hc ⊢
        linarith
      rw [hdec]
      rfl

theorem paintAux_length (files : List FileNode) (total : Nat) (width done : ℚ) :
    (paintAux files total width done).length = files.length := by
  induction files generalizing done with
  | nil => simp [paintAux]
  | cons f rest ih => simp [paintAux, ih]

/-- The i-th painted segment: the file at index i, with endpoints given by
the running totals before and through i, as fractions of the total. -/
theorem paintAux_getElem (files : List FileNode) (total : Nat) (width done : ℚ)
    (i : Nat) (hi : i < files.length) :
    (paintAux files total width done)[i]? =
      some (files.get ⟨i, hi⟩,
        width * (done + (cumSize files i : ℚ) / (total : ℚ)),
        width * (done + (cumSize files (i + 1) : ℚ) / (total : ℚ))) := by
  induction files generalizing i done with
  | nil => simp at hi
  | cons f rest ih =>
    cases i with
    | zero =>
      simp [paintAux, cumSize_cons_succ, cumSize_zero]
    | succ j =>
      have hj : j < rest.length := by simpa using hi
      have step := ih (done + (f.size : ℚ) / (total : ℚ)) j hj
      simp only [paintAux, List.getElem?_cons_succ]
      rw [step]
      have harith : ∀ n : Nat, done + (f.size : ℚ) / (total : ℚ) + (n : ℚ) / (total : ℚ)
          = done + ((f.size + n : Nat) : ℚ) / (total : ℚ) := by
        intro n
        push_cast
        rw [add_div]
        ring
      simp only [cumSize_cons_succ, List.get]
      rw [harith (cumSize rest j), harith (cumSize rest (j + 1))]

theorem listTreeSize_append (a b : List FileNode) :
    listTreeSize (a ++ b) = listTreeSize a + listTreeSize b := by
  induction a with
  | nil => simp [listTreeSize]
  | cons c cs ih => simp [listTreeSize, ih, Nat.add_assoc]

theorem iterNext_done_treeSize {stack : List FileNode}
    (h : iterNext stack = .done) : listTreeSize stack = 0 := by
  cases stack with
  | nil => simp [listTreeSize]
  | cons node tail =>
    cases node with
    | File p s => simp [iterNext] at h
    | Directory q children =>
      simp only [iterNext] at h
      rcases hm : children ++ tail with - | ⟨node2, rest2⟩
      · obtain ⟨hc, ht⟩ := List.append_eq_nil.mp hm
        subst hc
        subst ht
        simp [listTreeSize, treeSize]
      · rw [hm] at h
        cases node2 <;> simp at h

theorem iterNext_yield_treeSize {stack : List FileNode} {f : FileNode}
    {rest : List FileNode} (h : iterNext stack = .yield f rest) :
    f.size + listTreeSize rest = listTreeSize stack := by
  cases stack with
  | nil => simp [iterNext] at h
  | cons node tail =>
    cases node with
    | File p s =>
      simp only [iterNext] at h
      injection h with h1 h2
      subst h1
      subst h2
      simp [listTreeSize, treeSize, FileNode.size]
    | Directory q children =>
      simp only [iterNext] at h
      have h3 : listTreeSize (children ++ tail) = listTreeSize children + listTreeSize tail :=
        listTreeSize_append children tail
      rcases hm : children ++ tail with - | ⟨node2, rest2⟩
      · rw [hm] at h
        simp at h
      · cases node2 with
        | File p s =>
          rw [hm] at h
          injection h with h1 h2
          subst h1
          subst h2
          rw [hm] at h3
          simp only [listTreeSize, treeSize, FileNode.size] at h3 ⊢
          omega
        | Directory _ _ =>
          rw [hm] at h
          simp at h

/-- When the iterator runs to completion, the sizes of the yielded files
sum to the total tree size of everything on the stack. -/
theorem flattenLoop_sum (stack : List FileNode) :
    ∀ l, flattenLoop stack = some l → (l.map FileNode.size).sum = listTreeSize stack := by
  induction stack using flattenLoop.induct with
  | case1 stack h =>
    intro l hl
    rw [flattenLoop_done h] at hl
    injection hl with hl
    subst hl
    simp [iterNext_done_treeSize h]
  | case2 stack h =>
    intro l hl
    rw [flattenLoop_panicked h] at hl
    exact absurd hl (by simp)
  | case3 stack f rest h ih =>
    intro l hl
    rw [flattenLoop_yield h] at hl
    cases hrec : flattenLoop rest with
    | none =>
      rw [hrec] at hl
      exact absurd hl (by simp)
    | some l2 =>
      rw [hrec] at hl
      injection hl with hl
      subst hl
      simp only [List.map_cons, List.sum_cons]
      rw [ih l2 hrec]
      exact iterNext_yield_treeSize h

theorem traverseChildren_gone (p : String) (rest : List FsEntry) :
    traverseChildren (.gone p :: rest) = traverseChildren rest := by
  simp [traverseChildren, traverse]

theorem traverseChildren_unlistable (p : String) (rest : List FsEntry) :
    traverseChildren (.unlistable p :: rest) = traverseChildren rest := by
  simp [traverseChildren, traverse]

theorem traverseChildren_other (p : String) (rest : List FsEntry) :
    traverseChildren (.other p :: rest) = traverseChildren rest := by
  simp [traverseChildren, traverse]

theorem traverseChildren_file (p : String) (s : Nat) (reread : Bool)
    (rest : List FsEntry) :
    traverseChildren (.file p s reread :: rest)
      = .File p (if reread then 0 else s) :: traverseChildren rest := by
  simp [traverseChildren]

theorem traverseChildren_dir (p : String) (es rest : List FsEntry) :
    traverseChildren (.dir p es :: rest)
      = .Directory p (traverseChildren es) :: traverseChildren rest := by
  simp [traverseChildren, traverse]

theorem traverseChildren_append (a b : List FsEntry) :
    traverseChildren (a ++ b) = traverseChildren a ++ traverseChildren b := by
  induction a with
  | nil => simp [traverseChildren]
  | cons e es ih =>
    cases e with
    | gone p => simp [traverseChildren_gone, ih]
    | file p s reread => simp [traverseChildren_file, ih]
    | dir p es2 => simp [traverseChildren_dir, ih]
    | unlistable p => simp [traverseChildren_unlistable, ih]
    | other p => simp [traverseChildren_other, ih]

/-- C1 (code_bug): the claim says flattening yields exactly the File leaves
of the tree; but on the tree Directory "/" [Directory "/a" [File "/a/f" 1]]
the iterator pops the root's first child, which is a Directory, and the
assert in FileNodeIterator::next fails, so the program panics instead of
yielding File "/a/f".  This theorem evaluates the code at that input. -/
theorem flatten_nested_first_child_panics :
    flatten (FileNode.Directory "/" [FileNode.Directory "/a" [FileNode.File "/a/f" 1]])
      = none := by
  have h1 : iterNext [FileNode.Directory "/" [FileNode.Directory "/a"
      [FileNode.File "/a/f" 1]]] = IterStep.panicked := rfl
  rw [flatten, flattenLoop_panicked h1]

/-- C2 (counterexample): the claim says that with total 0 the resolve walk
returns no selection; but on the nonempty sequence [File "/a" 0] (whose
total is 0) a click at x = 10 with width 100 selects the first file, so
the selection is set, not cleared. -/
theorem event_zero_total_selects_first_cex :
    (([FileNode.File "/a" 0].map FileNode.size).sum = 0)
    ∧ eventMouseDown (some ([FileNode.File "/a" 0], 0)) 100 10 none
        = some (FileNode.File "/a" 0) := by
  refine ⟨by simp [FileNode.size], ?_⟩
  show resolve [FileNode.File "/a" 0] 0 100 10 = some (FileNode.File "/a" 0)
  norm_num [resolve, resolveAux, FileNode.size]

/-- C2 (amended): when the total passed to the inverse mapping is 0 the
target is 0, so resolve returns the head of the flattened sequence: no
selection only when the sequence is empty, and the first file otherwise. -/
theorem resolve_total_zero_head (files : List FileNode) (width x : ℚ) :
    resolve files 0 width x = files.head? := by
  cases files with
  | nil => simp [resolve, resolveAux]
  | cons f rest =>
    rw [resolve, resolveAux, if_neg]
    · rfl
    · rw [not_lt]
      push_cast
      rw [zero_mul]
      positivity

/-- C3 (counterexample): the claim says paint draws no segments when the
total is 0; but on the sequence [File "/a" 0] with total 0 the paint loop
still emits one segment (there is no total == 0 guard in paint). -/
theorem paint_zero_total_draws_segment_cex :
    paintSegments [FileNode.File "/a" 0] 0 100 ≠ [] := by
  simp [paintSegments, paintAux]

/-- C3 (amended): the paint loop emits exactly one segment per file of the
flattened sequence, in order, for every total including 0; the segment
list is empty exactly when the sequence is empty. -/
theorem paint_segments_one_per_file (files : List FileNode) (total : Nat)
    (width : ℚ) :
    (paintSegments files total width).map Prod.fst = files := by
  rw [paintSegments]
  suffices h : ∀ done : ℚ,
      (paintAux files total width done).map Prod.fst = files from h 0
  intro done
  induction files generalizing done with
  | nil => simp [paintAux]
  | cons f rest ih => simp [paintAux, ih]

/-- C4 (confirmed): a MouseDown with a stored flattened sequence sets the
selection to exactly the spec's inverse mapping: with target =
total * (x / width), the first file whose running total after adding its
own size reaches the target, and no selection (cleared) when no file
does. -/
theorem event_resolve_first_hit (files : List FileNode) (total : Nat)
    (width x : ℚ) (sel : Option FileNode) :
    eventMouseDown (some (files, total)) width x sel
      = firstHit files ((total : ℚ) * (x / width)) := by
  show resolve files total width x = _
  rw [resolve, resolveAux_eq_firstHitAux]
  have hmap : (runningTotals files).map ((0 : Nat) + ·) = runningTotals files := by
    simp
  rw [hmap]
  rfl

/-- C5 (counterexample): the claim says resolving the midpoint of any
file's painted interval returns that file; but for the zero-size file
File "/b" 0 after File "/a" 1 (total 1, extent 100) the painted interval
is the empty [100, 100), its midpoint resolves to File "/a" 1, a
different file. -/
theorem midpoint_zero_size_file_cex :
    (([FileNode.File "/a" 1, FileNode.File "/b" 0].map FileNode.size).sum = 1)
    ∧ (paintSegments [FileNode.File "/a" 1, FileNode.File "/b" 0] 1 100)[1]?
        = some (FileNode.File "/b" 0, 100, 100)
    ∧ resolve [FileNode.File "/a" 1, FileNode.File "/b" 0] 1 100 ((100 + 100) / 2)
        = some (FileNode.File "/a" 1)
    ∧ FileNode.File "/a" 1 ≠ FileNode.File "/b" 0 := by
  refine ⟨by simp [FileNode.size], ?_, ?_, by simp⟩
  · norm_num [paintSegments, paintAux, FileNode.size]
  · norm_num [resolve, resolveAux, FileNode.size]

/-- C5 (amended): for every file of strictly positive size, resolving the
midpoint of its painted interval returns that same file (with a positive
extent; the total is then positive because it bounds the file's size). -/
theorem midpoint_roundtrip (files : List FileNode) (i : Nat) (width : ℚ)
    (f : FileNode) (lf rt : ℚ) (hW : 0 < width) (hs : 0 < f.size)
    (hseg : (paintSegments files ((files.map FileNode.size).sum) width)[i]?
      = some (f, lf, rt)) :
    resolve files ((files.map FileNode.size).sum) width ((lf + rt) / 2)
      = some f := by
  set T := (files.map FileNode.size).sum with hT
  have hlen : i < files.length := by
    by_contra hcon
    push_neg at hcon
    have hnone : (paintSegments files T width)[i]? = none := by
      apply List.getElem?_eq_none
      rw [paintSegments, paintAux_length]
      exact hcon
    rw [hnone] at hseg
    exact absurd hseg (by simp)
  rw [paintSegments, paintAux_getElem files T width 0 i hlen] at hseg
  simp only [Option.some.injEq, Prod.mk.injEq] at hseg
  obtain ⟨hf, hlo, hhi⟩ := hseg
  subst hf
  subst hlo
  subst hhi
  have hPsucc : cumSize files (i + 1) = cumSize files i + (files.get ⟨i, hlen⟩).size :=
    cumSize_succ_get files i hlen
  have hsize_le : (files.get ⟨i, hlen⟩).size ≤ T :=
    size_le_total (List.get_mem files i hlen)
  have hTpos : 0 < T := lt_of_lt_of_le hs hsize_le
  have hTQ : ((T : Nat) : ℚ) ≠ 0 := by
    exact_mod_cast hTpos.ne'
  have hWQ : width ≠ 0 := hW.ne'
  have hab : ((cumSize files i : Nat) : ℚ) < ((cumSize files (i + 1) : Nat) : ℚ) := by
    rw [hPsucc]
    push_cast
    have hsq : (0 : ℚ) < ((files.get ⟨i, hlen⟩).size : ℚ) := by exact_mod_cast hs
    linarith
  have htarget : ((T : Nat) : ℚ) *
      ((width * (0 + ((cumSize files i : Nat) : ℚ) / ((T : Nat) : ℚ))
        + width * (0 + ((cumSize files (i + 1) : Nat) : ℚ) / ((T : Nat) : ℚ))) / 2
        / width)
      = (((cumSize files i : Nat) : ℚ) + ((cumSize files (i + 1) : Nat) : ℚ)) / 2 := by
    field_simp
    ring
  rw [resolve, htarget]
  apply resolveAux_eq_get files i hlen 0
  · push_cast
    push_cast at hab
    linarith
  · push_cast
    push_cast at hab
    linarith

/-- C6 (confirmed): the spec's concrete scenario: the tree
Directory "/" [File "/a" 1, Directory "/b" [File "/b/c" 3]] flattens to
[File "/a" 1, File "/b/c" 3] with total 4, and with extent 100 the inverse
mapping resolves position 10 to File "/a" and position 50 to
File "/b/c". -/
theorem scenario_tree_flatten_resolve :
    flatten (FileNode.Directory "/" [FileNode.File "/a" 1,
        FileNode.Directory "/b" [FileNode.File "/b/c" 3]])
      = some [FileNode.File "/a" 1, FileNode.File "/b/c" 3]
    ∧ (([FileNode.File "/a" 1, FileNode.File "/b/c" 3].map FileNode.size).sum = 4)
    ∧ resolve [FileNode.File "/a" 1, FileNode.File "/b/c" 3] 4 100 10
      = some (FileNode.File "/a" 1)
    ∧ resolve [FileNode.File "/a" 1, FileNode.File "/b/c" 3] 4 100 50
      = some (FileNode.File "/b/c" 3) := by
  refine ⟨?_, by simp [FileNode.size], ?_, ?_⟩
  · have h1 : iterNext [FileNode.Directory "/" [FileNode.File "/a" 1,
        FileNode.Directory "/b" [FileNode.File "/b/c" 3]]]
        = IterStep.yield (FileNode.File "/a" 1)
          [FileNode.Directory "/b" [FileNode.File "/b/c" 3]] := rfl
    have h2 : iterNext [FileNode.Directory "/b" [FileNode.File "/b/c" 3]]
        = IterStep.yield (FileNode.File "/b/c" 3) [] := rfl
    have h3 : iterNext ([] : List FileNode) = IterStep.done := rfl
    rw [flatten, flattenLoop_yield h1, flattenLoop_yield h2, flattenLoop_done h3]
    rfl
  · norm_num [resolve, resolveAux, FileNode.size]
  · norm_num [resolve, resolveAux, FileNode.size]

/-- C7 (confirmed): the scanner returns none exactly when the root cannot
be stat'ed, is a directory that cannot be listed, or is neither a regular
file nor a directory; and on a regular file it returns a File node with
the measured size. -/
theorem scan_failure_and_file_cases :
    (∀ e : FsEntry, traverse e = none ↔
      ((∃ p, e = FsEntry.gone p) ∨ (∃ p, e = FsEntry.unlistable p)
        ∨ (∃ p, e = FsEntry.other p)))
    ∧ (∀ (p : String) (s : Nat) (b : Bool),
        traverse (FsEntry.file p s b) = some (FileNode.File p s)) := by
  constructor
  · intro e
    cases e with
    | gone p => simp [traverse]
    | file p s b => simp [traverse]
    | dir p es => simp [traverse]
    | unlistable p => simp [traverse]
    | other p => simp [traverse]
  · intro p s b
    rfl

/-- C8 (confirmed): scanning a listable directory always yields a
Directory node; an entry that fails to stat, a subdirectory whose scan
returns none (unlistable) and an unsupported object are spliced out of
the children exactly, while a file entry stays (with size 0 when the
metadata re-read fails, its measured size otherwise) and a listable
subdirectory stays as its recursively scanned Directory node. -/
theorem scan_dir_children_splice (p q : String)
    (entries pre post es : List FsEntry) (s : Nat) :
    traverse (FsEntry.dir p entries)
        = some (FileNode.Directory p (traverseChildren entries))
    ∧ traverseChildren (pre ++ FsEntry.gone q :: post)
        = traverseChildren (pre ++ post)
    ∧ traverseChildren (pre ++ FsEntry.unlistable q :: post)
        = traverseChildren (pre ++ post)
    ∧ traverseChildren (pre ++ FsEntry.other q :: post)
        = traverseChildren (pre ++ post)
    ∧ traverseChildren (pre ++ FsEntry.file q s true :: post)
        = traverseChildren pre ++ FileNode.File q 0 :: traverseChildren post
    ∧ traverseChildren (pre ++ FsEntry.file q s false :: post)
        = traverseChildren pre ++ FileNode.File q s :: traverseChildren post
    ∧ traverseChildren (pre ++ FsEntry.dir q es :: post)
        = traverseChildren pre
            ++ FileNode.Directory q (traverseChildren es) :: traverseChildren post := by
  refine ⟨rfl, ?_, ?_, ?_, ?_, ?_, ?_⟩ <;>
    simp [traverseChildren_append, traverseChildren_gone, traverseChildren_unlistable,
      traverseChildren_other, traverseChildren_file, traverseChildren_dir]

/-- C9 (counterexample): the claim quantifies over every tree, but on
Directory "/" [Directory "/b" [File "/b/x" 2]] the flattening iterator
panics, so no flattened sequence and no total exist at all. -/
theorem size_conservation_panic_cex :
    ¬ ∃ l, flatten (FileNode.Directory "/" [FileNode.Directory "/b"
          [FileNode.File "/b/x" 2]]) = some l
      ∧ (l.map FileNode.size).sum
        = treeSize (FileNode.Directory "/" [FileNode.Directory "/b"
            [FileNode.File "/b/x" 2]]) := by
  rintro ⟨l, hl, -⟩
  have h1 : iterNext [FileNode.Directory "/" [FileNode.Directory "/b"
      [FileNode.File "/b/x" 2]]] = IterStep.panicked := rfl
  rw [flatten, flattenLoop_panicked h1] at hl
  exact absurd hl (by simp)

/-- C9 (amended): for every tree on which the flattening iterator runs to
completion without panicking, the total computed by summing the sizes of
the flattened sequence equals the sum of the stored size over every File
node anywhere in the tree, with every Directory contributing 0. -/
theorem flatten_size_conservation (t : FileNode) (l : List FileNode)
    (h : flatten t = some l) : (l.map FileNode.size).sum = treeSize t := by
  have hsum := flattenLoop_sum [t] l h
  simpa [listTreeSize] using hsum

/-- Witness for flatten_size_conservation at a concrete tree. -/
theorem flatten_size_conservation_witness :
    ([FileNode.File "/a" 1].map FileNode.size).sum
      = treeSize (FileNode.Directory "/" [FileNode.File "/a" 1]) := by
  apply flatten_size_conservation
  have h1 : iterNext [FileNode.Directory "/" [FileNode.File "/a" 1]]
      = IterStep.yield (FileNode.File "/a" 1) [] := rfl
  have h2 : iterNext ([] : List FileNode) = IterStep.done := rfl
  rw [flatten, flattenLoop_yield h1, flattenLoop_done h2]
  rfl

/-- C10 (confirmed): a click at position 0 with a positive extent always
resolves to the first file of a nonempty flattened sequence: the target is
0 and the running total reaches it immediately, whatever the first file's
size and whatever the total (including 0). -/
theorem resolve_position_zero_first (f : FileNode) (rest : List FileNode)
    (total : Nat) (width : ℚ) (_hW : 0 < width) :
    resolve (f :: rest) total width 0 = some f := by
  rw [resolve, resolveAux, if_neg]
  rw [not_lt, zero_div, mul_zero]
  positivity

/-- Witness for resolve_position_zero_first: a zero-size first file and a
zero total. -/
theorem resolve_position_zero_first_witness :
    resolve [FileNode.File "/a" 0] 0 100 0 = some (FileNode.File "/a" 0) :=
  resolve_position_zero_first (FileNode.File "/a" 0) [] 0 100 (by norm_num)

/-- Witness for midpoint_roundtrip at the one-file sequence [File "/a" 4]
with extent 2: the painted interval is [0, 2), its midpoint 1 resolves to
the file itself. -/
theorem midpoint_roundtrip_witness :
    resolve [FileNode.File "/a" 4]
        (([FileNode.File "/a" 4].map FileNode.size).sum) 2 ((0 + 2) / 2)
      = some (FileNode.File "/a" 4) := by
  apply midpoint_roundtrip [FileNode.File "/a" 4] 0 2 (FileNode.File "/a" 4) 0 2
  · norm_num
  · simp [FileNode.size]
  · norm_num [paintSegments, paintAux, FileNode.size]

end DirStat
